import Mathlib

/-!
Verification of the ordered-container shim in `module/spl/spl-avl.c`, which maps
the Solaris AVL API onto the Linux kernel red-black tree layer.

Modelling conventions:

* The backing `struct rb_node` graph is embedded as a plain inductive binary
  tree `RTree`.  The red-black recoloring and rotations performed by
  `rb_insert_color`/`rb_erase` permute only the shape of the tree while
  preserving its in-order sequence, and the container contract treats the
  balancing discipline as a pluggable internal strategy; they are therefore
  modelled as the identity on shape.  Every concrete trace evaluated below was
  chosen so that the observables asserted about it (in-order sequence, cached
  endpoints, counts, returned neighbors) coincide with the ones the real
  rebalanced shapes produce.
* `rb_link_node(new, parent, link)` stores `new` through `link`
  unconditionally; `rb_link_at` mirrors this, replacing (and thereby
  detaching) whatever subtree occupied the chosen child link.
* `rb_next`/`rb_prev` return the in-order successor/predecessor of a node of
  the tree, which is a function of the in-order sequence alone; they are
  embedded as `rb_next_elem`/`rb_prev_elem` via `listNext`.
* `VERIFY(0)` (an unconditional abort, compiled in production builds) is
  embedded by returning `none` from an `Option`-valued function.  Debug-only
  `ASSERT`s are treated as preconditions and appear as theorem hypotheses.
* Object pointers are values of `α` (with decidable equality standing for
  pointer identity); `NULL` is `Option.none`.  The `avl_object` macro is an
  exact pointer inverse of `avl_o2n` on real nodes, so it is invisible at this
  level; its behavior on `NULL` (which produces the non-null address
  `0 - avl_offset`) is modelled separately at the address level by
  `avl_object_addr`/`avl_nearest_addr`.
-/

namespace SplAvl

/-- The reachable `rb_node` structure under an `avl_tree`, with each node
identified by the caller object linked at it. -/
inductive RTree (α : Type) where
  | leaf : RTree α
  | node : RTree α → α → RTree α → RTree α
deriving DecidableEq, Repr

namespace RTree

/-- In-order traversal: the sequence `rb_first, rb_next, rb_next, ...` of the
objects in the tree. -/
def inorder {α : Type} : RTree α → List α
  | leaf => []
  | node l x r => inorder l ++ x :: inorder r

end RTree

open RTree

/-- `AVL_BEFORE` from `sys/avl.h`. -/
def AVL_BEFORE : Int := 0

/-- `AVL_AFTER` from `sys/avl.h`. -/
def AVL_AFTER : Int := 1

/-- `struct avl_tree` (spl part_001): root, element count `avl_children`, and
the cached endpoint pointers `avl_first` / `avl_last`.  The comparator is
passed explicitly to the operations that call it; `avl_size` plays no role in
any operation and `avl_offset` only matters at the address level. -/
structure AvlTree (α : Type) where
  root : RTree α
  children : Nat
  first : Option α
  last : Option α
deriving DecidableEq, Repr

/-- `avl_create`: empty root, zero count, both cached endpoints NULL. -/
def avl_create {α : Type} : AvlTree α :=
  { root := RTree.leaf, children := 0, first := none, last := none }

/-- The `while (n)` loop of `avl_find`.  The comparator is called as
`compar(probe, object_at_n)`; on result `1` the walk moves to `n->rb_left`, on
`-1` to `n->rb_right`, on `0` it stops with a match, and any other result hits
`VERIFY(0)` (modelled as `none`).  `prev` tracks the last visited node. -/
def avl_find_go {α : Type} (cmp : α → α → Int) :
    RTree α → α → Option α → Option (Option α × Option α)
  | RTree.leaf, _, prev => some (none, prev)
  | RTree.node l x r, probe, _ =>
    if cmp probe x = 1 then avl_find_go cmp l probe (some x)
    else if cmp probe x = -1 then avl_find_go cmp r probe (some x)
    else if cmp probe x = 0 then some (some x, some x)
    else none

/-- `avl_find`: returns `(match, *where)`; the walk starts at the root with
`prev = NULL`.  On no match the token `*where` is the last visited node. -/
def avl_find {α : Type} (cmp : α → α → Int) (t : AvlTree α) (probe : α) :
    Option (Option α × Option α) :=
  avl_find_go cmp t.root probe none

/-- `rb_link_node(new, parent, link)` with `link` being the left (`after =
false`) or right (`after = true`) child link of the node holding `here`: the
freshly initialised node for `newData` is stored through the link,
unconditionally replacing the subtree previously reachable there. -/
def rb_link_at {α : Type} [DecidableEq α] (newData here : α) (after : Bool) :
    RTree α → RTree α
  | RTree.leaf => RTree.leaf
  | RTree.node l x r =>
    if x = here then
      if after then RTree.node l x (RTree.node RTree.leaf newData RTree.leaf)
      else RTree.node (RTree.node RTree.leaf newData RTree.leaf) x r
    else RTree.node (rb_link_at newData here after l) x (rb_link_at newData here after r)

/-- `avl_insert_here`: dispatch on `direction` (`AVL_AFTER` links at
`n->rb_right`, `AVL_BEFORE` at `n->rb_left`, anything else hits `VERIFY(0)`),
increment `avl_children`, link the node, and update the cached endpoints by
pointer comparison with `here`. -/
def avl_insert_here {α : Type} [DecidableEq α] (t : AvlTree α)
    (newData here : α) (direction : Int) : Option (AvlTree α) :=
  if direction = AVL_AFTER ∨ direction = AVL_BEFORE then
    some { root := rb_link_at newData here (direction = AVL_AFTER) t.root
         , children := t.children + 1
         , first := if t.first = some here ∧ direction = AVL_BEFORE
                    then some newData else t.first
         , last := if t.last = some here ∧ direction = AVL_AFTER
                   then some newData else t.last }
  else none

/-- Line 125 of `spl-avl.c`: `direction = tree->avl_comparator(node, here) !=
-1;` — in C the `!=` yields the int `1` (`AVL_AFTER`) or `0` (`AVL_BEFORE`). -/
def avl_insert_direction {α : Type} (cmp : α → α → Int) (nd here : α) : Int :=
  if cmp nd here ≠ -1 then AVL_AFTER else AVL_BEFORE

/-- `avl_insert`: a `where` of 0 (`none`) makes the node the sole element and
both cached endpoints (the `ASSERT0(tree->avl_children)` is debug-only and
appears as a hypothesis of the theorems).  Otherwise the neighbor is
`avl_object(tree, where)` and the direction is re-derived from the comparator
before delegating to `avl_insert_here`. -/
def avl_insert {α : Type} [DecidableEq α] (cmp : α → α → Int) (t : AvlTree α)
    (nd : α) (whr : Option α) : Option (AvlTree α) :=
  match whr with
  | none =>
    some { root := RTree.node RTree.leaf nd RTree.leaf
         , children := 1, first := some nd, last := some nd }
  | some here => avl_insert_here t nd here (avl_insert_direction cmp nd here)

/-- `avl_add`: `avl_find` for the token (its return value is discarded), then
`avl_insert` at it. -/
def avl_add {α : Type} [DecidableEq α] (cmp : α → α → Int) (t : AvlTree α)
    (nd : α) : Option (AvlTree α) := do
  let fr ← avl_find cmp t nd
  avl_insert cmp t nd fr.2

/-- The element immediately following `nd` in a list; `listNext nd (inorder
t)` is the object at `rb_next` of the node holding `nd`. -/
def listNext {α : Type} [DecidableEq α] (nd : α) : List α → Option α
  | [] => none
  | [_] => none
  | x :: y :: rest => if x = nd then some y else listNext nd (y :: rest)

/-- `rb_next`: in-order successor of the node holding `nd` (NULL = `none` when
`nd` is the in-order last element). -/
def rb_next_elem {α : Type} [DecidableEq α] (t : RTree α) (nd : α) : Option α :=
  listNext nd (inorder t)

/-- `rb_prev`: in-order predecessor of the node holding `nd`. -/
def rb_prev_elem {α : Type} [DecidableEq α] (t : RTree α) (nd : α) : Option α :=
  listNext nd (inorder t).reverse

/-- The object at the leftmost node (`rb_first`) of a subtree. -/
def treeMin? {α : Type} : RTree α → Option α
  | RTree.leaf => none
  | RTree.node l x _ => some ((treeMin? l).getD x)

/-- Detach the leftmost node of a subtree. -/
def eraseMin {α : Type} : RTree α → RTree α
  | RTree.leaf => RTree.leaf
  | RTree.node RTree.leaf _ r => r
  | RTree.node (RTree.node a b c) x r =>
    RTree.node (eraseMin (RTree.node a b c)) x r

/-- The structural effect of `rb_erase` on the node holding `nd`: a node with
an empty child is spliced out; a node with two children is replaced by its
in-order successor (the leftmost node of its right subtree), exactly as
`rb_erase` rewires in that case.  The rebalancing fixup that follows preserves
the in-order sequence and is modelled as the identity. -/
def rb_erase_go {α : Type} [DecidableEq α] : RTree α → α → RTree α
  | RTree.leaf, _ => RTree.leaf
  | RTree.node l x r, nd =>
    if x = nd then
      match l with
      | RTree.leaf => r
      | RTree.node a b c =>
        match treeMin? r with
        | none => RTree.node a b c
        | some m => RTree.node (RTree.node a b c) m (eraseMin r)
    else RTree.node (rb_erase_go l nd) x (rb_erase_go r nd)

/-- `avl_remove`: decrement `avl_children` first; if the removed object is the
cached first (resp. last), recompute that cache from `rb_next` (resp.
`rb_prev`) of its node — still in the pre-erase tree — or set it to NULL when
the container became empty; finally `rb_erase` the node. -/
def avl_remove {α : Type} [DecidableEq α] (t : AvlTree α) (nd : α) : AvlTree α :=
  let children' := t.children - 1
  { root := rb_erase_go t.root nd
  , children := children'
  , first := if t.first = some nd
             then (if children' ≠ 0 then rb_next_elem t.root nd else none)
             else t.first
  , last := if t.last = some nd
            then (if children' ≠ 0 then rb_prev_elem t.root nd else none)
            else t.last }

/-- `avl_first`: the cached minimum pointer, returned as is. -/
def avl_first {α : Type} (t : AvlTree α) : Option α := t.first

/-- `avl_last`: the cached maximum pointer, returned as is. -/
def avl_last {α : Type} (t : AvlTree α) : Option α := t.last

/-- `avl_numnodes`. -/
def avl_numnodes {α : Type} (t : AvlTree α) : Nat := t.children

/-- `avl_is_empty`: `RB_EMPTY_ROOT`, i.e. the root node pointer is NULL. -/
def avl_is_empty {α : Type} [DecidableEq α] (t : AvlTree α) : Bool :=
  t.root = RTree.leaf

/-- `avl_nearest` at the object level: empty tree returns NULL; `AVL_AFTER`
returns the object of `rb_next(where)`, `AVL_BEFORE` that of `rb_prev(where)`,
any other direction hits `VERIFY(0)`.  At this level a NULL `rb_next` maps to
`none`; the raw pointer the C macro `avl_object` actually fabricates from a
NULL node is exposed by `avl_nearest_addr` below. -/
def avl_nearest {α : Type} [DecidableEq α] (t : AvlTree α) (whr : α)
    (direction : Int) : Option (Option α) :=
  if avl_is_empty t then some none
  else if direction = AVL_AFTER then some (rb_next_elem t.root whr)
  else if direction = AVL_BEFORE then some (rb_prev_elem t.root whr)
  else none

/-- The macro `avl_object(a, node) = (void *)((char *)node - a->avl_offset)`
on raw addresses, with NULL = 0. -/
def avl_object_addr (offset nodeAddr : Int) : Int := nodeAddr - offset

/-- The value `avl_nearest` returns at the address level once the direction
switch has selected an adjacent node: `adjacentAddr` is the address returned
by `rb_next`/`rb_prev` (`none` = NULL, at an endpoint), and the function
returns `avl_object` of it — also when it is NULL. -/
def avl_nearest_addr (offset : Int) (isEmpty : Bool) (adjacentAddr : Option Int) :
    Int :=
  if isEmpty then 0 else avl_object_addr offset (adjacentAddr.getD 0)

/-- `avl_destroy_nodes`: store `avl_first` into `*cookie`; if it is NULL
return NULL, else `avl_remove` it and return it.  The returned pair is
(returned object = final `*cookie`, tree afterwards). -/
def avl_destroy_nodes {α : Type} [DecidableEq α] (t : AvlTree α) :
    Option α × AvlTree α :=
  match t.first with
  | none => (none, t)
  | some m => (some m, avl_remove t m)

/-- `avl_destroy`: the argument models the `avl_tree_t *` pointer (`none` =
NULL, rejected by `ASSERT(tree != NULL)`, the only assertion present); the
container bookkeeping is then released by `spl_kmem_free` unconditionally —
there is no check of `avl_children`. -/
def avl_destroy {α : Type} : Option (AvlTree α) → Option Unit
  | none => none
  | some _ => some ()

/-- Repeated `avl_destroy_nodes` calls: the list of objects yielded by `fuel`
successive invocations (stopping at the first NULL). -/
def drainList {α : Type} [DecidableEq α] : Nat → AvlTree α → List α
  | 0, _ => []
  | fuel + 1, t =>
    match avl_destroy_nodes t with
    | (none, _) => []
    | (some m, t') => m :: drainList fuel t'

/-- The in-order sequence is non-decreasing under the comparator: no earlier
element compares strictly greater than a later one. -/
def NonDecr {α : Type} (cmp : α → α → Int) (l : List α) : Prop :=
  l.Pairwise (fun a b => cmp a b ≠ 1)

/-- The container invariants of the specification: the in-order sequence is
non-decreasing and duplicate-free (object identities are distinct), the count
matches it, and the cached endpoints are its first and last elements. -/
def WF {α : Type} [DecidableEq α] (cmp : α → α → Int) (t : AvlTree α) : Prop :=
  NonDecr cmp (inorder t.root) ∧
  (inorder t.root).Nodup ∧
  t.children = (inorder t.root).length ∧
  t.first = (inorder t.root).head? ∧
  t.last = (inorder t.root).getLast?

instance {α : Type} (cmp : α → α → Int) (l : List α) :
    Decidable (NonDecr cmp l) := by
  unfold NonDecr
  infer_instance

instance {α : Type} [DecidableEq α] (cmp : α → α → Int) (t : AvlTree α) :
    Decidable (WF cmp t) := by
  unfold WF NonDecr
  infer_instance

/-- The integer comparator of the specification scenario. -/
def cmpInt (a b : Int) : Int := if a < b then -1 else if b < a then 1 else 0

/-- A three-element tree (root 5, children 3 and 7) used to exercise
`avl_find`'s steering. -/
def t1w : AvlTree Int :=
  { root := RTree.node (RTree.node RTree.leaf 3 RTree.leaf) 5
      (RTree.node RTree.leaf 7 RTree.leaf)
  , children := 3, first := some 3, last := some 7 }

/-- The container state `avl_add 5; avl_add 3; avl_add 8` actually produces
(in-order sequence [3, 8, 5]). -/
def s2w : AvlTree Int :=
  { root := RTree.node
      (RTree.node RTree.leaf 3 (RTree.node RTree.leaf 8 RTree.leaf)) 5 RTree.leaf
  , children := 3, first := some 3, last := some 5 }

/-- The container state `avl_add 5; 3; 8; 1` actually produces: linking 1
before 5 overwrote the occupied left child link of 5, detaching 3 and 8. -/
def s3w : AvlTree Int :=
  { root := RTree.node (RTree.node RTree.leaf 1 RTree.leaf) 5 RTree.leaf
  , children := 4, first := some 3, last := some 5 }

/-- The container state `avl_add 3; 5; 4` actually produces: linking 4 after 3
overwrote the occupied right child link of 3, detaching 5. -/
def s4w : AvlTree Int :=
  { root := RTree.node RTree.leaf 3 (RTree.node RTree.leaf 4 RTree.leaf)
  , children := 3, first := some 3, last := some 5 }

/-- A well-formed three-element container over 1, 2, 3. -/
def t5w : AvlTree Int :=
  { root := RTree.node (RTree.node RTree.leaf 1 RTree.leaf) 2
      (RTree.node RTree.leaf 3 RTree.leaf)
  , children := 3, first := some 1, last := some 3 }

/-- A well-formed two-element container over 1, 2. -/
def t6w : AvlTree Int :=
  { root := RTree.node RTree.leaf 1 (RTree.node RTree.leaf 2 RTree.leaf)
  , children := 2, first := some 1, last := some 2 }

/-- A well-formed one-element container over 9. -/
def t9w : AvlTree Int :=
  { root := RTree.node RTree.leaf 9 RTree.leaf
  , children := 1, first := some 9, last := some 9 }

/-! ### Structural lemmas about the embedded rbtree layer -/

theorem inorder_ne_nil {α : Type} (l : RTree α) (x : α) (r : RTree α) :
    inorder (RTree.node l x r) ≠ [] := by
  simp [inorder]

theorem treeMin?_eq_head? {α : Type} (t : RTree α) :
    treeMin? t = (inorder t).head? := by
  induction t with
  | leaf => rfl
  | node l x r ihl ihr =>
    cases hl : inorder l with
    | nil => simp [treeMin?, inorder, ihl, hl]
    | cons y ys => simp [treeMin?, inorder, ihl, hl]

theorem inorder_eraseMin {α : Type} (t : RTree α) :
    inorder (eraseMin t) = (inorder t).tail := by
  induction t with
  | leaf => rfl
  | node l x r ihl ihr =>
    cases l with
    | leaf => simp [eraseMin, inorder]
    | node a b c =>
      show inorder (eraseMin (RTree.node a b c)) ++ x :: inorder r =
        (inorder (RTree.node a b c) ++ x :: inorder r).tail
      rw [List.tail_append_of_ne_nil (inorder_ne_nil a b c), ihl]

theorem rb_erase_go_of_not_mem {α : Type} [DecidableEq α] (t : RTree α)
    (nd : α) (h : nd ∉ inorder t) : rb_erase_go t nd = t := by
  induction t with
  | leaf => rfl
  | node l x r ihl ihr =>
    simp only [inorder, List.mem_append, List.mem_cons, not_or] at h
    simp [rb_erase_go, Ne.symm h.2.1, ihl h.1, ihr h.2.2]

theorem inorder_rb_erase_go {α : Type} [DecidableEq α] (t : RTree α) (nd : α)
    (h : (inorder t).Nodup) : inorder (rb_erase_go t nd) = (inorder t).erase nd := by
  induction t with
  | leaf => rfl
  | node l x r ihl ihr =>
    have hparts := List.nodup_append.mp (by simpa [inorder] using h)
    obtain ⟨hL, hxR, hdisj⟩ := hparts
    have hxnotL : x ∉ inorder l := fun hx => hdisj hx (List.mem_cons_self x _)
    have hxnotR : x ∉ inorder r := (List.nodup_cons.mp hxR).1
    have hRnd : (inorder r).Nodup := (List.nodup_cons.mp hxR).2
    by_cases hx : x = nd
    · subst hx
      have hrhs : (inorder (RTree.node l x r)).erase x = inorder l ++ inorder r := by
        rw [inorder, List.erase_append_right _ hxnotL, List.erase_cons_head]
      rw [hrhs]
      cases l with
      | leaf =>
        simp [rb_erase_go, inorder]
      | node a b c =>
        have hred : rb_erase_go (RTree.node (RTree.node a b c) x r) x =
            (match treeMin? r with
            | none => RTree.node a b c
            | some m => RTree.node (RTree.node a b c) m (eraseMin r)) := by
          simp [rb_erase_go]
        rw [hred]
        cases hm : treeMin? r with
        | none =>
          have : inorder r = [] := by
            rw [treeMin?_eq_head?] at hm
            exact List.head?_eq_none_iff.mp hm
          simp [this]
        | some m =>
          rw [treeMin?_eq_head?] at hm
          obtain ⟨ys, hys⟩ := List.head?_eq_some_iff.mp hm
          simp [inorder, inorder_eraseMin, hys]
    · have hlhs : inorder (rb_erase_go (RTree.node l x r) nd) =
          (inorder l).erase nd ++ x :: (inorder r).erase nd := by
        simp [rb_erase_go, hx, inorder, ihl hL, ihr hRnd]
      rw [hlhs, inorder]
      by_cases hndL : nd ∈ inorder l
      · have hndR : nd ∉ inorder r := fun hr =>
          (hdisj hndL) (List.mem_cons_of_mem x hr)
        rw [List.erase_append_left _ hndL, List.erase_of_not_mem hndR]
      · rw [List.erase_append_right _ hndL, List.erase_cons_tail (by simp [Ne.symm, hx]),
          List.erase_of_not_mem hndL]

theorem head?_erase_eq {α : Type} [DecidableEq α] (l : List α) (nd : α) :
    (if l.head? = some nd then (if l.length - 1 ≠ 0 then listNext nd l else none)
     else l.head?) = (l.erase nd).head? := by
  cases l with
  | nil => simp
  | cons x tl =>
    by_cases hx : x = nd
    · subst hx
      simp only [List.head?_cons, if_pos rfl, List.erase_cons_head,
        List.length_cons, Nat.add_sub_cancel]
      cases tl with
      | nil => simp
      | cons y ys => simp [listNext]
    · have her : (x :: tl).erase nd = x :: tl.erase nd :=
        List.erase_cons_tail (show ¬(x == nd) by simp [hx])
      have hne : (some x = some nd) = False := by simp [hx]
      simp only [List.head?_cons, hne, if_false, her]

theorem reverse_erase {α : Type} [DecidableEq α] (l : List α) (nd : α)
    (h : l.Nodup) : (l.erase nd).reverse = l.reverse.erase nd := by
  rw [h.erase_eq_filter, (List.nodup_reverse.mpr h).erase_eq_filter,
    List.filter_reverse]

theorem getLast?_erase_eq {α : Type} [DecidableEq α] (l : List α) (nd : α)
    (h : l.Nodup) :
    (if l.getLast? = some nd then
       (if l.length - 1 ≠ 0 then listNext nd l.reverse else none)
     else l.getLast?) = (l.erase nd).getLast? := by
  have h2 := head?_erase_eq l.reverse nd
  rw [List.head?_reverse, List.length_reverse, ← reverse_erase l nd h,
    List.head?_reverse] at h2
  exact h2

theorem avl_find_go_mem {α : Type} (cmp : α → α → Int) :
    ∀ (t : RTree α) (probe : α) (prev e : Option α) (w : Option α),
    avl_find_go cmp t probe prev = some (e, w) → ∀ x, e = some x → x ∈ inorder t := by
  intro t
  induction t with
  | leaf =>
    intro probe prev e w hfind x hx
    simp [avl_find_go] at hfind
    rw [← hfind.1] at hx
    cases hx
  | node l y r ihl ihr =>
    intro probe prev e w hfind x hx
    simp only [avl_find_go] at hfind
    by_cases h1 : cmp probe y = 1
    · rw [if_pos h1] at hfind
      exact List.mem_append.mpr (Or.inl (ihl probe (some y) e w hfind x hx))
    · rw [if_neg h1] at hfind
      by_cases h2 : cmp probe y = -1
      · rw [if_pos h2] at hfind
        exact List.mem_append.mpr
          (Or.inr (List.mem_cons_of_mem y (ihr probe (some y) e w hfind x hx)))
      · rw [if_neg h2] at hfind
        by_cases h0 : cmp probe y = 0
        · rw [if_pos h0] at hfind
          simp only [Option.some.injEq, Prod.mk.injEq] at hfind
          rw [← hfind.1] at hx
          injection hx with hyx
          subst hyx
          exact List.mem_append.mpr (Or.inr (List.mem_cons_self y _))
        · rw [if_neg h0] at hfind
          cases hfind

theorem avl_remove_spec {α : Type} [DecidableEq α] (cmp : α → α → Int)
    (t : AvlTree α) (nd : α) (hwf : WF cmp t) (hmem : nd ∈ inorder t.root) :
    inorder (avl_remove t nd).root = (inorder t.root).erase nd ∧
    (avl_remove t nd).children = t.children - 1 ∧
    WF cmp (avl_remove t nd) := by
  obtain ⟨hord, hnodup, hcount, hfirst, hlast⟩ := hwf
  have hino : inorder (avl_remove t nd).root = (inorder t.root).erase nd :=
    inorder_rb_erase_go t.root nd hnodup
  refine ⟨hino, rfl, ?_, ?_, ?_, ?_, ?_⟩
  · rw [NonDecr, hino]
    exact List.Pairwise.sublist (List.erase_sublist nd (inorder t.root)) hord
  · rw [hino]
    exact hnodup.erase nd
  · show t.children - 1 = (inorder (avl_remove t nd).root).length
    rw [hino, List.length_erase_of_mem hmem, hcount]
  · show (if t.first = some nd
        then (if t.children - 1 ≠ 0 then rb_next_elem t.root nd else none)
        else t.first) = (inorder (avl_remove t nd).root).head?
    rw [hino, hfirst, hcount, rb_next_elem]
    exact head?_erase_eq (inorder t.root) nd
  · show (if t.last = some nd
        then (if t.children - 1 ≠ 0 then rb_prev_elem t.root nd else none)
        else t.last) = (inorder (avl_remove t nd).root).getLast?
    rw [hino, hlast, hcount, rb_prev_elem]
    exact getLast?_erase_eq (inorder t.root) nd hnodup

/-- Claim C1: the claim states that a comparator result of -1 steers the
`avl_find` walk to the left child and +1 to the right child, and that a walk
ending at an exhausted left branch makes the neighbor an insert-before
neighbor (right branch: insert-after).  The code does the opposite: on the
tree with root 5, left child 3 and right child 7, the probe 4 (which compares
-1 against both 5 and 7) is steered to the right twice and ends at neighbor 7,
where the claim requires it to descend left to 3 and report insert-after-3;
the probe 6 (+1 against 5, then +1 against 3) is steered left twice and ends
at neighbor 3 where the claim requires neighbor 7. -/
theorem C1_find_eval :
    cmpInt 4 5 = -1 ∧ cmpInt 4 7 = -1 ∧
    avl_find cmpInt t1w 4 = some (none, some 7) ∧
    cmpInt 6 5 = 1 ∧ cmpInt 6 3 = 1 ∧
    avl_find cmpInt t1w 6 = some (none, some 3) ∧
    (some (7 : Int) ≠ some 3 ∧ some (3 : Int) ≠ some 7) := by
  decide

/-- Claim C2: the claim states that after every sequence of inserts/removes
the in-order traversal is non-decreasing under the comparator.  Refutation:
starting from a fresh container, `avl_add 5; avl_add 3; avl_add 8` (with the
standard integer comparator) produces in-order sequence [3, 8, 5], which is
not non-decreasing — `avl_find`'s inverted steering sent the probe 8 to the
left of both 5 and 3, and `avl_insert` then linked it after 3. -/
theorem C2_order_eval :
    (((avl_add cmpInt (avl_create (α := Int)) 5).bind fun s =>
        avl_add cmpInt s 3).bind fun s => avl_add cmpInt s 8) = some s2w ∧
    inorder s2w.root = [3, 8, 5] ∧
    ¬ NonDecr cmpInt [3, 8, 5] := by
  decide

/-- Claim C3: the claim states that after inserting 5, 3, 8, 1 via
find-then-insert, `minimum` returns 1 and `maximum` returns 8, and after
`remove 1` `minimum` returns 3.  On the code, the cached minimum `avl_first`
is 3 (not 1) and the cached maximum `avl_last` is 5 (not 8) already after the
four inserts; only the `remove 1` postcondition happens to match. -/
theorem C3_scenario_eval :
    ((((avl_add cmpInt (avl_create (α := Int)) 5).bind fun s =>
        avl_add cmpInt s 3).bind fun s =>
        avl_add cmpInt s 8).bind fun s => avl_add cmpInt s 1) = some s3w ∧
    avl_first s3w = some 3 ∧ some (3 : Int) ≠ some 1 ∧
    avl_last s3w = some 5 ∧ some (5 : Int) ≠ some 8 ∧
    avl_first (avl_remove s3w 1) = some 3 := by
  decide

/-- Claim C4: the claim states that after every mutation the cached endpoints
equal the true first/last element of the in-order traversal.  Refutation:
after `avl_add 3; avl_add 5; avl_add 4`, linking 4 after 3 overwrote the
occupied right child link of 3 (detaching 5), so the reachable in-order
sequence is [3, 4] while the cached maximum still reports 5; the count cache
(3) also no longer matches the tree (2 elements). -/
theorem C4_endpoint_eval :
    (((avl_add cmpInt (avl_create (α := Int)) 3).bind fun s =>
        avl_add cmpInt s 5).bind fun s => avl_add cmpInt s 4) = some s4w ∧
    avl_last s4w = some 5 ∧
    inorder s4w.root = [3, 4] ∧
    (inorder s4w.root).getLast? = some 4 ∧
    avl_last s4w ≠ (inorder s4w.root).getLast? ∧
    (5 : Int) ∉ inorder s4w.root ∧
    avl_numnodes s4w = 3 ∧ (inorder s4w.root).length = 2 := by
  decide

/-- Claim C5: the claim states that `avl_nearest` returns null when queried
past an endpoint.  For a member element with an existing neighbor the code
does return the in-order successor (conjuncts on `t5w`), but past an endpoint
it returns `avl_object(tree, NULL) = (char *)0 - avl_offset`: with
`avl_offset = 16` that is the non-null address -16, not NULL (0).  Only a
container with `avl_offset = 0` happens to return NULL. -/
theorem C5_nearest_eval :
    avl_nearest t5w 2 AVL_AFTER = some (some 3) ∧
    avl_nearest t5w 2 AVL_BEFORE = some (some 1) ∧
    avl_nearest t5w 3 AVL_AFTER = some none ∧
    avl_nearest_addr 16 false none = -16 ∧ (-16 : Int) ≠ 0 ∧
    avl_nearest_addr 0 false none = 0 := by
  decide

/-- Claim C7: for every well-formed container and member element,
`avl_remove` detaches exactly that element (the in-order sequence afterwards
is the old one with the element erased), decrements the count, recomputes a
cached endpoint from the adjacent in-order element (`rb_next`/`rb_prev`,
computed before the erase) when the removed element was cached there — or
NULL when the container becomes empty — and leaves the cached endpoints equal
to the true in-order first/last, holding no reference to the removed
element. -/
theorem C7_remove_spec {α : Type} [DecidableEq α] (cmp : α → α → Int)
    (t : AvlTree α) (nd : α) (hwf : WF cmp t) (hmem : nd ∈ inorder t.root) :
    (avl_remove t nd).children = t.children - 1 ∧
    inorder (avl_remove t nd).root = (inorder t.root).erase nd ∧
    nd ∉ inorder (avl_remove t nd).root ∧
    WF cmp (avl_remove t nd) ∧
    avl_first (avl_remove t nd) = (inorder (avl_remove t nd).root).head? ∧
    avl_last (avl_remove t nd) = (inorder (avl_remove t nd).root).getLast? ∧
    avl_first (avl_remove t nd) ≠ some nd ∧
    avl_last (avl_remove t nd) ≠ some nd ∧
    (avl_first t = some nd → avl_first (avl_remove t nd) =
      (if t.children - 1 ≠ 0 then rb_next_elem t.root nd else none)) ∧
    (avl_last t = some nd → avl_last (avl_remove t nd) =
      (if t.children - 1 ≠ 0 then rb_prev_elem t.root nd else none)) := by
  obtain ⟨hino, hch, hwf'⟩ := avl_remove_spec cmp t nd hwf hmem
  have hnodup : (inorder t.root).Nodup := hwf.2.1
  have hnotmem : nd ∉ inorder (avl_remove t nd).root := by
    rw [hino]
    exact hnodup.not_mem_erase
  refine ⟨hch, hino, hnotmem, hwf', hwf'.2.2.2.1, hwf'.2.2.2.2, ?_, ?_, ?_, ?_⟩
  · intro hcontra
    exact hnotmem (List.mem_of_mem_head?
      (by rw [← hwf'.2.2.2.1]; exact Option.mem_def.mpr hcontra))
  · intro hcontra
    have hrev : nd ∈ (inorder (avl_remove t nd).root).reverse := by
      refine List.mem_of_mem_head? ?_
      rw [List.head?_reverse, ← hwf'.2.2.2.2]
      exact Option.mem_def.mpr hcontra
    exact hnotmem (List.mem_reverse.mp hrev)
  · intro hfi
    have hfi' : t.first = some nd := hfi
    simp [avl_remove, avl_first, hfi']
  · intro hla
    have hla' : t.last = some nd := hla
    simp [avl_remove, avl_last, hla']

/-- Witness for `C7_remove_spec`: the well-formed container over 1, 2, 3 with
the middle element 2 removed. -/
theorem C7_remove_spec_witness :
    WF cmpInt t5w ∧ (2 : Int) ∈ inorder t5w.root ∧
    ((avl_remove t5w 2).children = t5w.children - 1 ∧
      inorder (avl_remove t5w 2).root = (inorder t5w.root).erase 2 ∧
      (2 : Int) ∉ inorder (avl_remove t5w 2).root ∧
      WF cmpInt (avl_remove t5w 2) ∧
      avl_first (avl_remove t5w 2) = (inorder (avl_remove t5w 2).root).head? ∧
      avl_last (avl_remove t5w 2) = (inorder (avl_remove t5w 2).root).getLast? ∧
      avl_first (avl_remove t5w 2) ≠ some 2 ∧
      avl_last (avl_remove t5w 2) ≠ some 2 ∧
      (avl_first t5w = some 2 → avl_first (avl_remove t5w 2) =
        (if t5w.children - 1 ≠ 0 then rb_next_elem t5w.root 2 else none)) ∧
      (avl_last t5w = some 2 → avl_last (avl_remove t5w 2) =
        (if t5w.children - 1 ≠ 0 then rb_prev_elem t5w.root 2 else none))) :=
  ⟨by decide, by decide, C7_remove_spec cmpInt t5w 2 (by decide) (by decide)⟩

theorem drainList_eq {α : Type} [DecidableEq α] (cmp : α → α → Int) :
    ∀ (n : Nat) (t : AvlTree α), WF cmp t → t.children = n →
    drainList n t = inorder t.root := by
  intro n
  induction n with
  | zero =>
    intro t hwf hn
    have hlen : (inorder t.root).length = 0 := by rw [← hwf.2.2.1, hn]
    simp [drainList, List.length_eq_zero.mp hlen]
  | succ k ih =>
    intro t hwf hn
    have hlen : (inorder t.root).length = k + 1 := by rw [← hwf.2.2.1, hn]
    cases hl : inorder t.root with
    | nil => rw [hl] at hlen; cases hlen
    | cons m tl =>
      have hfirst : t.first = some m := by rw [hwf.2.2.2.1, hl]; rfl
      have hmem : m ∈ inorder t.root := by rw [hl]; exact List.mem_cons_self m tl
      obtain ⟨hino, hch, hwf'⟩ := avl_remove_spec cmp t m hwf hmem
      have hino' : inorder (avl_remove t m).root = tl := by
        rw [hino, hl, List.erase_cons_head]
      have hch' : (avl_remove t m).children = k := by rw [hch, hn]; omega
      have hstep : drainList (k + 1) t = m :: drainList k (avl_remove t m) := by
        simp [drainList, avl_destroy_nodes, hfirst]
      rw [hstep, ih (avl_remove t m) hwf' hch', hino']

/-- Claim C6: for every well-formed container, `avl_destroy_nodes` returns
the cached minimum and removes exactly it, returns NULL precisely when the
container is empty, preserves every container invariant, drains the container
by yielding the in-order sequence (each of the pairwise-distinct elements
exactly once), and an `avl_find` interleaved after a call can only return
elements still present — never the already-yielded one. -/
theorem C6_destroy_nodes_spec {α : Type} [DecidableEq α] (cmp : α → α → Int)
    (t : AvlTree α) (hwf : WF cmp t) :
    (avl_destroy_nodes t).1 = avl_first t ∧
    ((avl_destroy_nodes t).1 = none ↔ avl_numnodes t = 0) ∧
    WF cmp (avl_destroy_nodes t).2 ∧
    (∀ m, (avl_destroy_nodes t).1 = some m →
      inorder (avl_destroy_nodes t).2.root = (inorder t.root).erase m ∧
      m ∉ inorder (avl_destroy_nodes t).2.root ∧
      (avl_destroy_nodes t).2.children = t.children - 1) ∧
    drainList (avl_numnodes t) t = inorder t.root ∧
    (inorder t.root).Nodup ∧
    (∀ probe e w, avl_find cmp (avl_destroy_nodes t).2 probe = some (e, w) →
      ∀ x, e = some x → x ∈ inorder (avl_destroy_nodes t).2.root) := by
  have hdrain : drainList (avl_numnodes t) t = inorder t.root :=
    drainList_eq cmp t.children t hwf rfl
  cases hf : t.first with
  | none =>
    have hnil : inorder t.root = [] := by
      have := hwf.2.2.2.1
      rw [hf] at this
      exact List.head?_eq_none_iff.mp this.symm
    have hdn : avl_destroy_nodes t = (none, t) := by
      simp [avl_destroy_nodes, hf]
    refine ⟨by rw [hdn, avl_first, hf], ?_, by rw [hdn]; exact hwf, ?_, hdrain,
      hwf.2.1, ?_⟩
    · rw [hdn]
      have : avl_numnodes t = 0 := by
        rw [avl_numnodes, hwf.2.2.1, hnil]
        rfl
      simp [this]
    · intro m hm
      rw [hdn] at hm
      cases hm
    · intro probe e w hfind x hx
      exact avl_find_go_mem cmp (avl_destroy_nodes t).2.root probe none e w hfind x hx
  | some m =>
    have hmem : m ∈ inorder t.root := by
      refine List.mem_of_mem_head? ?_
      rw [← hwf.2.2.2.1]
      exact Option.mem_def.mpr hf
    obtain ⟨hino, hch, hwf'⟩ := avl_remove_spec cmp t m hwf hmem
    have hdn : avl_destroy_nodes t = (some m, avl_remove t m) := by
      simp [avl_destroy_nodes, hf]
    have hnz : avl_numnodes t ≠ 0 := by
      rw [avl_numnodes, hwf.2.2.1]
      intro hz
      rw [List.length_eq_zero.mp hz] at hmem
      cases hmem
    refine ⟨by rw [hdn, avl_first, hf], by rw [hdn]; simp [hnz], by rw [hdn]; exact hwf',
      ?_, hdrain, hwf.2.1, ?_⟩
    · intro m' hm'
      rw [hdn] at hm'
      injection hm' with hmm
      subst hmm
      rw [hdn]
      refine ⟨hino, ?_, hch⟩
      rw [hino]
      exact hwf.2.1.not_mem_erase
    · intro probe e w hfind x hx
      exact avl_find_go_mem cmp (avl_destroy_nodes t).2.root probe none e w hfind x hx

/-- Witness for `C6_destroy_nodes_spec`: the well-formed two-element
container over 1, 2. -/
theorem C6_destroy_nodes_spec_witness :
    WF cmpInt t6w ∧
    ((avl_destroy_nodes t6w).1 = avl_first t6w ∧
      ((avl_destroy_nodes t6w).1 = none ↔ avl_numnodes t6w = 0) ∧
      WF cmpInt (avl_destroy_nodes t6w).2 ∧
      (∀ m, (avl_destroy_nodes t6w).1 = some m →
        inorder (avl_destroy_nodes t6w).2.root = (inorder t6w.root).erase m ∧
        m ∉ inorder (avl_destroy_nodes t6w).2.root ∧
        (avl_destroy_nodes t6w).2.children = t6w.children - 1) ∧
      drainList (avl_numnodes t6w) t6w = inorder t6w.root ∧
      (inorder t6w.root).Nodup ∧
      (∀ probe e w, avl_find cmpInt (avl_destroy_nodes t6w).2 probe = some (e, w) →
        ∀ x, e = some x → x ∈ inorder (avl_destroy_nodes t6w).2.root)) :=
  ⟨by decide, C6_destroy_nodes_spec cmpInt t6w (by decide)⟩

/-- Claim C9 counterexample: the claim states that `avl_destroy` on a
non-empty container aborts (assertion-style) rather than proceeding.  On the
one-element container `t9w` the code does not abort: it proceeds and releases
the bookkeeping (`some ()`), because the only assertion present is
`ASSERT(tree != NULL)`. -/
theorem C9_destroy_counterexample :
    avl_numnodes t9w = 1 ∧ avl_destroy (some t9w) ≠ none ∧
    avl_destroy (some t9w) = some () := by
  decide

/-- Claim C9 (amended): calling `avl_destroy` on a non-empty container is not
detected: the code performs no emptiness assertion, and releases the
container bookkeeping unconditionally for every non-NULL container pointer,
non-empty containers included. -/
theorem C9_destroy_no_abort {α : Type} (t : AvlTree α)
    (_h : 0 < avl_numnodes t) : avl_destroy (some t) = some () := by
  rfl

/-- Witness for `C9_destroy_no_abort` at the non-empty container `t9w`. -/
theorem C9_destroy_no_abort_witness :
    0 < avl_numnodes t9w ∧ avl_destroy (some t9w) = some () :=
  ⟨by decide, C9_destroy_no_abort t9w (by decide)⟩

/-- Claim C8: `avl_insert` with a token of 0 (`none`, produced by a find on
an empty tree) makes the new element the sole node and both cached endpoints;
with a non-zero token it resolves the token's node to its object and
delegates to `avl_insert_here` with the direction re-derived from the
comparator; in both cases (the empty case under its `ASSERT0(avl_children)`
precondition) the count ends up incremented by one. -/
theorem C8_insert_spec {α : Type} [DecidableEq α] (cmp : α → α → Int)
    (t : AvlTree α) (nd : α) :
    avl_insert cmp t nd none =
      some { root := RTree.node RTree.leaf nd RTree.leaf, children := 1,
             first := some nd, last := some nd } ∧
    (∀ here, avl_insert cmp t nd (some here) =
      avl_insert_here t nd here (avl_insert_direction cmp nd here)) ∧
    (∀ whr t', avl_insert cmp t nd whr = some t' →
      (whr = none → t.children = 0 → t'.children = t.children + 1) ∧
      (∀ here, whr = some here → t'.children = t.children + 1)) := by
  refine ⟨rfl, fun here => rfl, ?_⟩
  intro whr t' hins
  constructor
  · intro hwn hch
    subst hwn
    simp [avl_insert] at hins
    rw [← hins, hch]
  · intro here hwh
    subst hwh
    have hd : avl_insert_direction cmp nd here = AVL_AFTER ∨
        avl_insert_direction cmp nd here = AVL_BEFORE := by
      unfold avl_insert_direction
      by_cases hcm : cmp nd here = -1
      · right; simp [hcm]
      · left; simp [hcm]
    have hins' : avl_insert_here t nd here (avl_insert_direction cmp nd here) =
        some t' := hins
    unfold avl_insert_here at hins'
    rw [if_pos hd] at hins'
    injection hins' with h1
    rw [← h1]

/-- Witness for `C8_insert_spec`: inserting 42 with the empty token into a
fresh container, and inserting 7 with a token at 9 into `t9w`. -/
theorem C8_insert_spec_witness :
    avl_insert cmpInt (avl_create (α := Int)) 42 none =
      some { root := RTree.node RTree.leaf 42 RTree.leaf, children := 1,
             first := some 42, last := some 42 } ∧
    ({ root := RTree.node RTree.leaf (42 : Int) RTree.leaf, children := 1,
       first := some 42, last := some 42 : AvlTree Int }).children =
      (avl_create (α := Int)).children + 1 ∧
    avl_insert cmpInt t9w 7 (some 9) =
      avl_insert_here t9w 7 9 (avl_insert_direction cmpInt 7 9) :=
  ⟨(C8_insert_spec cmpInt (avl_create (α := Int)) 42).1,
   ((C8_insert_spec cmpInt (avl_create (α := Int)) 42).2.2 none _
     (C8_insert_spec cmpInt (avl_create (α := Int)) 42).1).1 rfl rfl,
   (C8_insert_spec cmpInt t9w 7).2.1 9⟩

/-- Claim C10: `avl_insert` carries no direction in the token — it re-invokes
the comparator on the new element versus the token's neighbor and derives
`AVL_AFTER` exactly when the comparator returns 0 or +1 (equal elements are
placed after the neighbor) and `AVL_BEFORE` exactly when it returns -1; and
`avl_insert_here` links `AVL_AFTER` at the neighbor's right child and
`AVL_BEFORE` at its left child. -/
theorem C10_insert_direction_spec {α : Type} [DecidableEq α]
    (cmp : α → α → Int) (t : AvlTree α) (nd here : α)
    (hc : cmp nd here = -1 ∨ cmp nd here = 0 ∨ cmp nd here = 1) :
    avl_insert cmp t nd (some here) =
      avl_insert_here t nd here (avl_insert_direction cmp nd here) ∧
    (avl_insert_direction cmp nd here = AVL_AFTER ↔
      (cmp nd here = 0 ∨ cmp nd here = 1)) ∧
    (avl_insert_direction cmp nd here = AVL_BEFORE ↔ cmp nd here = -1) ∧
    (avl_insert_here t nd here AVL_AFTER).map AvlTree.root =
      some (rb_link_at nd here true t.root) ∧
    (avl_insert_here t nd here AVL_BEFORE).map AvlTree.root =
      some (rb_link_at nd here false t.root) := by
  refine ⟨rfl, ?_, ?_, ?_, ?_⟩
  · unfold avl_insert_direction AVL_AFTER AVL_BEFORE
    rcases hc with hcm | hcm | hcm <;> simp [hcm]
  · unfold avl_insert_direction AVL_AFTER AVL_BEFORE
    rcases hc with hcm | hcm | hcm <;> simp [hcm]
  · simp [avl_insert_here, AVL_AFTER, AVL_BEFORE]
  · simp [avl_insert_here, AVL_AFTER, AVL_BEFORE]

/-- Witness for `C10_insert_direction_spec`: inserting 7 at neighbor 9 in
`t9w` (the comparator returns -1, so the element is placed before). -/
theorem C10_insert_direction_spec_witness :
    (cmpInt 7 9 = -1 ∨ cmpInt 7 9 = 0 ∨ cmpInt 7 9 = 1) ∧
    (avl_insert cmpInt t9w 7 (some 9) =
        avl_insert_here t9w 7 9 (avl_insert_direction cmpInt 7 9) ∧
      (avl_insert_direction cmpInt 7 9 = AVL_AFTER ↔
        (cmpInt 7 9 = 0 ∨ cmpInt 7 9 = 1)) ∧
      (avl_insert_direction cmpInt 7 9 = AVL_BEFORE ↔ cmpInt 7 9 = -1) ∧
      (avl_insert_here t9w 7 9 AVL_AFTER).map AvlTree.root =
        some (rb_link_at 7 9 true t9w.root) ∧
      (avl_insert_here t9w 7 9 AVL_BEFORE).map AvlTree.root =
        some (rb_link_at 7 9 false t9w.root)) :=
  ⟨by decide, C10_insert_direction_spec cmpInt t9w 7 9 (by decide)⟩

end SplAvl
